import Mathlib

/-!
Shallow embedding of the `ovc` repository's version-comparison and cache
modules (`src/version.rs`, `src/cache.rs`, `src/platform.rs`), together with
theorems settling the frozen claims about them.

Strings are modelled as Lean `String` / `List Char` (codepoint sequences).
Rust's byte-wise `str` comparison coincides with codepoint-lexicographic
comparison on valid UTF-8, which is what the model uses.
-/

namespace Ovc

/-- Comparison of natural numbers, the model of `u32::cmp`. -/
def natCmp (a b : Nat) : Ordering :=
  if a < b then .lt else if b < a then .gt else .eq

/-- Lexicographic comparison of codepoint sequences: the model of Rust
`str::cmp` (byte order on valid UTF-8 equals codepoint order). -/
def lexCmp : List Char → List Char → Ordering
  | [], [] => .eq
  | [], _ :: _ => .lt
  | _ :: _, [] => .gt
  | a :: as, b :: bs =>
    match natCmp a.toNat b.toNat with
    | .eq => lexCmp as bs
    | o => o

/-- Model of Rust `str::split(c)`: cut a codepoint sequence at every
occurrence of `c`, keeping empty pieces; the result is never empty. -/
def splitChar (c : Char) : List Char → List (List Char)
  | [] => [[]]
  | x :: xs =>
    if x = c then [] :: splitChar c xs
    else
      match splitChar c xs with
      | [] => [[x]]
      | r :: rs => (x :: r) :: rs

/-- Model of `Vec<&str>::join(sep)` for a one-character separator. -/
def joinChar (c : Char) : List (List Char) → List Char
  | [] => []
  | [x] => x
  | x :: xs => x ++ c :: joinChar c xs

/-- Model of `part.split_whitespace().next()`: the first maximal run of
non-whitespace characters, or `none` when there is none. -/
def firstWhitespaceToken (l : List Char) : Option (List Char) :=
  match l.dropWhile Char.isWhitespace with
  | [] => none
  | l₁ => some (l₁.takeWhile (fun ch => !ch.isWhitespace))

/-- Numeric value of a run of decimal digits. -/
def digitsToNat (l : List Char) : Nat :=
  l.foldl (fun acc ch => acc * 10 + (ch.toNat - 48)) 0

/-- Model of Rust `str::parse::<u32>()`: an optional leading `+`, then one or
more ASCII digits, rejected on overflow past `u32::MAX`. -/
def parseU32 (l : List Char) : Option Nat :=
  let digits := if l.head? = some '+' then l.tail else l
  if digits = [] then none
  else if digits.all Char.isDigit then
    if digitsToNat digits < 4294967296 then some (digitsToNat digits) else none
  else none

/-- Embedding of one arm of the `filter_map` in `compare_versions`: take the
leading whitespace token of a dot-separated segment (falling back to the whole
segment) and attempt the `u32` parse. -/
def segmentParse (part : List Char) : Option Nat :=
  parseU32 ((firstWhitespaceToken part).getD part)

/-- Result of the `parse_version` closure in `compare_versions`. -/
structure ParsedVersion where
  version_parts : List Nat
  is_prerelease : Bool
  prerelease_suffix : List Char
deriving Repr, DecidableEq

/-- Embedding of the `parse_version` closure of `compare_versions`
(src/version.rs lines 23-44), on codepoint sequences. `parts[0]` is modelled
with `headD`; `splitChar_ne_nil` shows the index is always in bounds. -/
def parse_version (v : List Char) : ParsedVersion :=
  let parts := splitChar '-' v
  let base_version := parts.headD []
  let is_prerelease := decide (parts.length > 1)
  let prerelease_suffix := if is_prerelease then joinChar '-' parts.tail else []
  let version_parts := (splitChar '.' base_version).filterMap segmentParse
  ⟨version_parts, is_prerelease, prerelease_suffix⟩

/-- Option-valued variant of `parse_version` that models the fallible
operations of the Rust closure explicitly: the `parts[0]` index is `head?`
(a panic becomes `none`), and each failed `u32` parse is absorbed by
`filterMap` exactly as `filter_map` does in the source. -/
def parse_version_checked (v : List Char) : Option ParsedVersion := do
  let parts := splitChar '-' v
  let base_version ← parts.head?
  let is_prerelease := decide (parts.length > 1)
  let prerelease_suffix := if is_prerelease then joinChar '-' parts.tail else []
  let version_parts := (splitChar '.' base_version).filterMap segmentParse
  pure ⟨version_parts, is_prerelease, prerelease_suffix⟩

/-- Tail of the numeric loop of `compare_versions` once the left sequence is
exhausted: the remaining left positions read as zero. -/
def cmpNilPadded : List Nat → Ordering
  | [] => .eq
  | b :: bs =>
    match natCmp 0 b with
    | .eq => cmpNilPadded bs
    | o => o

/-- Tail of the numeric loop of `compare_versions` once the right sequence is
exhausted: the remaining right positions read as zero. -/
def cmpPaddedNil : List Nat → Ordering
  | [] => .eq
  | a :: as =>
    match natCmp a 0 with
    | .eq => cmpPaddedNil as
    | o => o

/-- Embedding of the numeric loop of `compare_versions` (lines 50-58):
position-by-position comparison with the shorter sequence padded by zeros. -/
def cmpPadded : List Nat → List Nat → Ordering
  | [], b => cmpNilPadded b
  | a :: as, [] => cmpPaddedNil (a :: as)
  | a :: as, b :: bs =>
    match natCmp a b with
    | .eq => cmpPadded as bs
    | o => o

/-- Embedding of the tie-break of `compare_versions` (lines 61-66). -/
def tieBreak (a b : List Char) (pa pb : ParsedVersion) : Ordering :=
  match pa.is_prerelease, pb.is_prerelease with
  | true, false => .lt
  | false, true => .gt
  | true, true => lexCmp pa.prerelease_suffix pb.prerelease_suffix
  | false, false => lexCmp a b

/-- Embedding of `compare_versions` (src/version.rs lines 22-67) on
codepoint sequences. -/
def compareVersionsChars (a b : List Char) : Ordering :=
  let pa := parse_version a
  let pb := parse_version b
  match cmpPadded pa.version_parts pb.version_parts with
  | .eq => tieBreak a b pa pb
  | o => o

/-- Embedding of `compare_versions` on `String`. -/
def compare_versions (a b : String) : Ordering :=
  compareVersionsChars a.data b.data

/-- Option-valued variant of `compare_versions` in which every fallible
operation of the source (indexing, parsing) is surfaced in the `Option`
monad rather than defaulted; its totality is the never-panics claim. -/
def compare_versions_checked (a b : String) : Option Ordering := do
  let pa ← parse_version_checked a.data
  let pb ← parse_version_checked b.data
  match cmpPadded pa.version_parts pb.version_parts with
  | .eq => pure (tieBreak a.data b.data pa pb)
  | o => pure o

/-- Model of `v.starts_with(p)`: `p` is a codepoint prefix of `v` (byte
prefix and codepoint prefix agree on valid UTF-8). -/
def startsWithChars : List Char → List Char → Bool
  | [], _ => true
  | _ :: _, [] => false
  | p :: ps, x :: xs => p = x && startsWithChars ps xs

/-- Comparator handed to `sort_by` in `find_matching_version`, as the
Boolean `le` relation of an ascending stable sort. -/
def versionLe (a b : String) : Bool :=
  compare_versions a b != Ordering.gt

/-- Embedding of `find_matching_version` (src/version.rs lines 193-224).
Rust's `sort_by` is a stable ascending sort, modelled by `List.mergeSort`;
`candidates.last()` is `getLast?`. -/
def find_matching_version (server_version : String) (available_versions : List String) :
    Option String :=
  if available_versions.contains server_version then some server_version
  else
    let server_parts := splitChar '.' server_version.data
    if server_parts.length < 2 then none
    else
      let server_major_minor := server_parts.headD [] ++ '.' :: server_parts.tail.headD []
      let candidates := available_versions.filter
        (fun v => startsWithChars server_major_minor v.data)
      if candidates.isEmpty then none
      else (candidates.mergeSort versionLe).getLast?

/-- Zero-padding of a numeric component sequence to length `n`, used to state
properties of the padded comparison. -/
def padTo (n : Nat) (l : List Nat) : List Nat :=
  l ++ List.replicate (n - l.length) 0

/-! ### Platform model (src/platform.rs) -/

/-- Base URL for the OpenShift mirror (src/platform.rs line 9). -/
def OC_MIRROR_BASE : String := "https://mirror.openshift.com/pub/openshift-v4"

/-- Embedding of `Platform` (src/platform.rs lines 19-28). -/
structure Platform where
  name : String
  mirror_path : String
  binary_suffix : String
  file_extension : String
deriving Repr, DecidableEq

/-- Embedding of `Platform::LINUX_X86_64`. -/
def Platform.LINUX_X86_64 : Platform :=
  ⟨"linux-x86_64", "x86_64", "linux", "tar.gz"⟩

/-- Embedding of `Platform::LINUX_ARM64`. -/
def Platform.LINUX_ARM64 : Platform :=
  ⟨"linux-arm64", "aarch64", "linux", "tar.gz"⟩

/-- Embedding of `Platform::MAC_X86_64`. -/
def Platform.MAC_X86_64 : Platform :=
  ⟨"mac-x86_64", "x86_64", "mac", "tar.gz"⟩

/-- Embedding of `Platform::MAC_ARM64`. -/
def Platform.MAC_ARM64 : Platform :=
  ⟨"mac-arm64", "x86_64", "mac-arm64", "tar.gz"⟩

/-- The platform descriptor constants defined in src/platform.rs: the "known
platform descriptors" of the data model. -/
def knownPlatforms : List Platform :=
  [Platform.LINUX_X86_64, Platform.LINUX_ARM64, Platform.MAC_X86_64, Platform.MAC_ARM64]

/-- Embedding of `Platform::build_download_url` (src/platform.rs lines 89-99). -/
def Platform.build_download_url (p : Platform) (version : String) : String :=
  OC_MIRROR_BASE ++ "/" ++ p.mirror_path ++ "/clients/ocp/" ++ version ++
    "/openshift-client-" ++ p.binary_suffix ++ "-" ++ version ++ "." ++ p.file_extension

/-! ### Cache model (src/cache.rs)

`HashMap<String, String>` is modelled as an association list with unique keys:
`get` is first-match lookup and `insert` replaces an existing key or appends.
`chrono::DateTime<Utc>` values are modelled by their serialized text; parsing
and formatting of that text by chrono is abstracted to the identity.
`serde_json` string parsing is abstracted: a file's content is either a JSON
tree or `notJson` (text rejected by the JSON parser), and the derived
deserializers of the structs in src/cache.rs are translated into decoders
over the tree (unknown object fields ignored, required fields looked up by
name, as serde does). -/

/-- Model of `HashMap::get` on an association list. -/
def mapGet (m : List (String × String)) (k : String) : Option String :=
  (m.find? (fun kv => kv.1 == k)).map (fun kv => kv.2)

/-- Model of `HashMap::insert` on an association list. -/
def mapInsert (k v : String) (m : List (String × String)) : List (String × String) :=
  if (m.find? (fun kv => kv.1 == k)).isSome then
    m.map (fun kv => if kv.1 == k then (k, v) else kv)
  else m ++ [(k, v)]

/-- Embedding of `VersionInfo` (src/cache.rs lines 19-25). -/
structure VersionInfo where
  version : String
  urls : List (String × String)
deriving Repr, DecidableEq

/-- Embedding of `VersionCache` (src/cache.rs lines 32-38); the timestamp is
the serialized chrono instant. -/
structure VersionCache where
  versions : List VersionInfo
  timestamp : String
deriving Repr, DecidableEq

/-- Embedding of `LegacyVersionCache` (src/cache.rs lines 41-47). -/
structure LegacyVersionCache where
  versions : List String
  timestamp : String
deriving Repr, DecidableEq

/-- Embedding of `VersionCache::get_version_strings` (src/cache.rs 67-69). -/
def VersionCache.get_version_strings (c : VersionCache) : List String :=
  c.versions.map (fun v => v.version)

/-- Embedding of `VersionCache::get_download_url` (src/cache.rs 80-86). -/
def VersionCache.get_download_url (c : VersionCache) (version platform_name : String) :
    Option String :=
  (c.versions.find? (fun v => v.version == version)).bind
    (fun v => mapGet v.urls platform_name)

/-- Embedding of `VersionCache::has_version` (src/cache.rs 96-98). -/
def VersionCache.has_version (c : VersionCache) (version : String) : Bool :=
  c.versions.any (fun v => v.version == version)

/-- JSON tree, the model of parsed `serde_json` documents. Only the shapes
reachable from the cache file matter: strings, arrays and objects. -/
inductive Json where
  | str (s : String)
  | arr (elements : List Json)
  | obj (fields : List (String × Json))

/-- Field lookup in a JSON object, as serde resolves a named struct field. -/
def jsonField (k : String) (fields : List (String × Json)) : Option Json :=
  (fields.find? (fun kv => kv.1 == k)).map (fun kv => kv.2)

/-- Decoder for a JSON string. -/
def decodeString : Json → Option String
  | .str s => some s
  | _ => none

/-- Sequential decoder for the fields of a `HashMap<String, String>`. -/
def decodeUrlFields : List (String × Json) → Option (List (String × String))
  | [] => some []
  | (k, v) :: rest => do
    let s ← decodeString v
    let tail ← decodeUrlFields rest
    pure ((k, s) :: tail)

/-- Sequential decoder for a JSON array, as serde decodes a `Vec`. -/
def decodeList {α : Type} (dec : Json → Option α) : List Json → Option (List α)
  | [] => some []
  | j :: js => do
    let x ← dec j
    let xs ← decodeList dec js
    pure (x :: xs)

/-- Decoder for `HashMap<String, String>`, the `urls` field. -/
def decodeUrls : Json → Option (List (String × String))
  | .obj fields => decodeUrlFields fields
  | _ => none

/-- Decoder for `VersionInfo`, as serde derives it. -/
def decodeVersionInfo (j : Json) : Option VersionInfo :=
  match j with
  | .obj fields => do
    let version ← jsonField "version" fields >>= decodeString
    let urls ← jsonField "urls" fields >>= decodeUrls
    pure ⟨version, urls⟩
  | _ => none

/-- Decoder for `VersionCache`, as serde derives it. -/
def decodeVersionCacheJson (j : Json) : Option VersionCache :=
  match j with
  | .obj fields => do
    let versions ← jsonField "versions" fields >>=
      (fun vj => match vj with
        | .arr elements => decodeList decodeVersionInfo elements
        | _ => none)
    let timestamp ← jsonField "timestamp" fields >>= decodeString
    pure ⟨versions, timestamp⟩
  | _ => none

/-- Decoder for `LegacyVersionCache`, as serde derives it. -/
def decodeLegacyVersionCacheJson (j : Json) : Option LegacyVersionCache :=
  match j with
  | .obj fields => do
    let versions ← jsonField "versions" fields >>=
      (fun vj => match vj with
        | .arr elements => decodeList decodeString elements
        | _ => none)
    let timestamp ← jsonField "timestamp" fields >>= decodeString
    pure ⟨versions, timestamp⟩
  | _ => none

/-- Serializer for the `urls` map. -/
def encodeUrls (urls : List (String × String)) : Json :=
  .obj (urls.map (fun kv => (kv.1, .str kv.2)))

/-- Serializer for `VersionInfo`, as serde derives it. -/
def encodeVersionInfo (v : VersionInfo) : Json :=
  .obj [("version", .str v.version), ("urls", encodeUrls v.urls)]

/-- Serializer for `VersionCache`, as serde derives it. -/
def encodeVersionCache (c : VersionCache) : Json :=
  .obj [("versions", .arr (c.versions.map encodeVersionInfo)),
        ("timestamp", .str c.timestamp)]

/-- Content of the cache file on disk: a JSON tree, or text that the JSON
parser rejects. -/
inductive CacheFileContent where
  | json (j : Json)
  | notJson

/-- Result of `serde_json::from_str::<VersionCache>` on the file content. -/
def decodeCacheFile : CacheFileContent → Option VersionCache
  | .json j => decodeVersionCacheJson j
  | .notJson => none

/-- Result of `serde_json::from_str::<LegacyVersionCache>` on the content. -/
def decodeLegacyCacheFile : CacheFileContent → Option LegacyVersionCache
  | .json j => decodeLegacyVersionCacheJson j
  | .notJson => none

/-- State of the filesystem visible to the cache module: the cache file (or
its absence), and whether writes to it succeed. Cache path resolution
(src/cache.rs 119-136) is abstracted into this single file slot. -/
structure CacheState where
  file : Option CacheFileContent
  writeOk : Bool

/-- Embedding of `build_version_info` (src/cache.rs 209-226): the platform
table in the source is the one-element array `[Platform::LINUX_X86_64]`. -/
def build_version_info (version_strings : List String) : List VersionInfo :=
  let platforms := [Platform.LINUX_X86_64]
  version_strings.map (fun version =>
    let urls := platforms.foldl
      (fun urls platform => mapInsert platform.name (platform.build_download_url version) urls)
      []
    ⟨version, urls⟩)

/-- Embedding of `save_cached_versions` (src/cache.rs 193-199). `now` is the
`Utc::now()` instant stamped by `VersionCache::new`; a failed write (or an
uncreatable cache directory) is the error path. -/
def save_cached_versions (versions : List VersionInfo) (now : String) (s : CacheState) :
    Except String Unit × CacheState :=
  if s.writeOk then
    (.ok (), { s with file := some (.json (encodeVersionCache ⟨versions, now⟩)) })
  else (.error "cache write failed", s)

/-- Embedding of `load_cached_versions` (src/cache.rs 148-182): current
format first, then legacy migration with a best-effort write-back whose
failure is swallowed, then deletion of unparseable content. The read itself
is modelled as succeeding whenever the file exists. -/
def load_cached_versions (now : String) (s : CacheState) :
    Except String (Option VersionCache) × CacheState :=
  match s.file with
  | none => (.ok none, s)
  | some content =>
    match decodeCacheFile content with
    | some cache => (.ok (some cache), s)
    | none =>
      match decodeLegacyCacheFile content with
      | some legacy_cache =>
        let version_info := build_version_info legacy_cache.versions
        let new_cache : VersionCache := ⟨version_info, legacy_cache.timestamp⟩
        let s₁ := (save_cached_versions new_cache.versions now s).2
        (.ok (some new_cache), s₁)
      | none => (.ok none, { s with file := none })

/-- Embedding of `fetch_and_cache_all_versions` (src/cache.rs 238-266): the
HTTP fetch and line scraping are abstracted into the `mirror` list handed in
(already stripped and digit-filtered, per the module boundary); the versions
are sorted with `compare_versions` and saved best-effort. -/
def fetch_and_cache_all_versions (mirror : List String) (now : String) (s : CacheState) :
    Except String (List String) × CacheState :=
  let versions := mirror.mergeSort versionLe
  let s₁ := (save_cached_versions (build_version_info versions) now s).2
  (.ok versions, s₁)

/-- Embedding of `update_cache_for_missing_version` (src/cache.rs 282-300).
The extra Boolean in the result records whether the fetch path ran, so that
"no network fetch happened" is statable. -/
def update_cache_for_missing_version (mirror : List String) (missing_version : String)
    (now : String) (s : CacheState) : Except String Bool × CacheState × Bool :=
  match load_cached_versions now s with
  | (.error e, s₁) => (.error e, s₁, false)
  | (.ok (some cache), s₁) =>
    if cache.has_version missing_version then (.ok false, s₁, false)
    else
      match fetch_and_cache_all_versions mirror now s₁ with
      | (.error e, s₂) => (.error e, s₂, true)
      | (.ok _, s₂) => (.ok true, s₂, true)
  | (.ok none, s₁) =>
    match fetch_and_cache_all_versions mirror now s₁ with
    | (.error e, s₂) => (.error e, s₂, true)
    | (.ok _, s₂) => (.ok true, s₂, true)

/-- Embedding of `version_exists_in_cache` (src/cache.rs 340-366); the extra
Boolean again records whether any fetch ran. -/
def version_exists_in_cache (mirror : List String) (version : String) (platform : Platform)
    (update_if_missing : Bool) (now : String) (s : CacheState) :
    Except String (Option Bool) × CacheState × Bool :=
  match load_cached_versions now s with
  | (.error e, s₁) => (.error e, s₁, false)
  | (.ok none, s₁) => (.ok none, s₁, false)
  | (.ok (some cache), s₁) =>
    let url_present := (cache.get_download_url version platform.name).isSome
    if url_present || !update_if_missing then (.ok (some url_present), s₁, false)
    else
      match update_cache_for_missing_version mirror version now s₁ with
      | (.error e, s₂, fetched) => (.error e, s₂, fetched)
      | (.ok true, s₂, fetched) =>
        match load_cached_versions now s₂ with
        | (.error e, s₃) => (.error e, s₃, fetched)
        | (.ok (some updated_cache), s₃) =>
          (.ok (some (updated_cache.get_download_url version platform.name).isSome), s₃, fetched)
        | (.ok none, s₃) => (.ok (some false), s₃, fetched)
      | (.ok false, s₂, fetched) => (.ok (some false), s₂, fetched)

end Ovc


namespace Ovc

theorem char_toNat_inj {a b : Char} (h : a.toNat = b.toNat) : a = b := by
  have := congrArg Char.ofNat h
  simpa using this

theorem natCmp_lt_iff {a b : Nat} : natCmp a b = .lt ↔ a < b := by
  unfold natCmp
  split <;> rename_i h₁
  · simp [h₁]
  · split <;> rename_i h₂ <;> simp_all <;> omega

theorem natCmp_gt_iff {a b : Nat} : natCmp a b = .gt ↔ b < a := by
  unfold natCmp
  split <;> rename_i h₁
  · simp_all <;> omega
  · split <;> rename_i h₂ <;> simp_all <;> omega

theorem natCmp_eq_iff {a b : Nat} : natCmp a b = .eq ↔ a = b := by
  unfold natCmp
  split <;> rename_i h₁
  · simp_all <;> omega
  · split <;> rename_i h₂ <;> simp_all <;> omega

theorem natCmp_self (a : Nat) : natCmp a a = .eq := natCmp_eq_iff.mpr rfl

theorem natCmp_swap (a b : Nat) : natCmp a b = (natCmp b a).swap := by
  unfold natCmp
  rcases Nat.lt_trichotomy a b with h | rfl | h
  · simp [h, Nat.lt_asymm h, Ordering.swap]
  · simp [Nat.lt_irrefl, Ordering.swap]
  · simp [h, Nat.lt_asymm h, Ordering.swap]

theorem lexCmp_refl (l : List Char) : lexCmp l l = .eq := by
  induction l with
  | nil => rfl
  | cons a as ih => simp [lexCmp, natCmp_self, ih]

theorem lexCmp_eq_iff {a b : List Char} : lexCmp a b = .eq ↔ a = b := by
  induction a generalizing b with
  | nil => cases b <;> simp [lexCmp]
  | cons x xs ih =>
    cases b with
    | nil => simp [lexCmp]
    | cons y ys =>
      simp only [lexCmp]
      rcases h : natCmp x.toNat y.toNat with _ | _ | _
      · simp only [List.cons.injEq]
        constructor
        · intro hh
          exact absurd hh (by simp)
        · rintro ⟨rfl, rfl⟩
          rw [natCmp_self] at h
          cases h
      · rw [ih]
        have hx : x = y := char_toNat_inj (natCmp_eq_iff.mp h)
        subst hx
        simp
      · simp only [List.cons.injEq]
        constructor
        · intro hh
          exact absurd hh (by simp)
        · rintro ⟨rfl, rfl⟩
          rw [natCmp_self] at h
          cases h

theorem lexCmp_swap (a b : List Char) : lexCmp a b = (lexCmp b a).swap := by
  induction a generalizing b with
  | nil => cases b <;> rfl
  | cons x xs ih =>
    cases b with
    | nil => rfl
    | cons y ys =>
      simp only [lexCmp]
      rw [natCmp_swap x.toNat y.toNat]
      rcases natCmp y.toNat x.toNat with _ | _ | _ <;> simp [Ordering.swap, ih ys]

theorem lexCmp_lt_trans {a b c : List Char} (hab : lexCmp a b = .lt) (hbc : lexCmp b c = .lt) :
    lexCmp a c = .lt := by
  induction a generalizing b c with
  | nil =>
    cases b with
    | nil => cases hab
    | cons y ys =>
      cases c with
      | nil => cases hbc
      | cons z zs => rfl
  | cons x xs ih =>
    cases b with
    | nil => cases hab
    | cons y ys =>
      cases c with
      | nil => cases hbc
      | cons z zs =>
        simp only [lexCmp] at hab hbc ⊢
        rcases h₁ : natCmp x.toNat y.toNat with _ | _ | _ <;> rw [h₁] at hab
        · rcases h₂ : natCmp y.toNat z.toNat with _ | _ | _ <;> rw [h₂] at hbc
          · have : x.toNat < z.toNat :=
              Nat.lt_trans (natCmp_lt_iff.mp h₁) (natCmp_lt_iff.mp h₂)
            rw [natCmp_lt_iff.mpr this]
          · have hy : y.toNat = z.toNat := natCmp_eq_iff.mp h₂
            rw [natCmp_lt_iff.mpr (hy ▸ natCmp_lt_iff.mp h₁)]
          · cases hbc
        · rcases h₂ : natCmp y.toNat z.toNat with _ | _ | _ <;> rw [h₂] at hbc
          · have hy : x.toNat = y.toNat := natCmp_eq_iff.mp h₁
            rw [natCmp_lt_iff.mpr (hy ▸ natCmp_lt_iff.mp h₂)]
          · have hxz : x.toNat = z.toNat :=
              (natCmp_eq_iff.mp h₁).trans (natCmp_eq_iff.mp h₂)
            rw [natCmp_eq_iff.mpr hxz]
            exact ih hab hbc
          · cases hbc
        · cases hab

theorem lexCmp_le_trans {a b c : List Char} (hab : lexCmp a b ≠ .gt) (hbc : lexCmp b c ≠ .gt) :
    lexCmp a c ≠ .gt := by
  rcases h₁ : lexCmp a b with _ | _ | _
  · rcases h₂ : lexCmp b c with _ | _ | _
    · rw [lexCmp_lt_trans h₁ h₂]
      simp
    · have he : b = c := lexCmp_eq_iff.mp h₂
      subst he
      simp [h₁]
    · exact absurd h₂ hbc
  · have he : a = b := lexCmp_eq_iff.mp h₁
    subst he
    exact hbc
  · exact absurd h₁ hab

theorem splitChar_ne_nil (c : Char) (l : List Char) : splitChar c l ≠ [] := by
  induction l with
  | nil => simp [splitChar]
  | cons x xs ih =>
    simp only [splitChar]
    split
    · simp
    · rcases h : splitChar c xs with _ | ⟨r, rs⟩
      · simp
      · simp

theorem mem_iff_one_lt_splitChar_length {c : Char} {l : List Char} :
    c ∈ l ↔ 1 < (splitChar c l).length := by
  induction l with
  | nil => simp [splitChar]
  | cons x xs ih =>
    simp only [splitChar]
    by_cases hx : x = c
    · subst hx
      have hne := splitChar_ne_nil x xs
      rw [if_pos rfl]
      constructor
      · intro _
        have hpos : 0 < (splitChar x xs).length := List.length_pos.mpr hne
        simp only [List.length_cons]
        omega
      · intro _
        exact List.mem_cons_self x xs
    · rw [if_neg hx]
      rcases h : splitChar c xs with _ | ⟨r, rs⟩
      · exact absurd h (splitChar_ne_nil c xs)
      · rw [h] at ih
        simp only [List.length_cons] at ih ⊢
        constructor
        · intro hm
          rcases List.mem_cons.mp hm with rfl | hm
          · exact absurd rfl hx
          · exact ih.mp hm
        · intro hlen
          exact List.mem_cons_of_mem x (ih.mpr hlen)

end Ovc

namespace Ovc

theorem cmpNilPadded_ne_gt (l : List Nat) : cmpNilPadded l ≠ .gt := by
  induction l with
  | nil => simp [cmpNilPadded]
  | cons b bs ih =>
    simp only [cmpNilPadded]
    rcases h : natCmp 0 b with _ | _ | _
    · simp
    · exact ih
    · exact absurd (natCmp_gt_iff.mp h) (by omega)

theorem cmpPadded_nil_right (a : List Nat) : cmpPadded a [] = cmpPaddedNil a := by
  cases a <;> rfl

theorem cmpPaddedNil_eq_swap (l : List Nat) : cmpPaddedNil l = (cmpNilPadded l).swap := by
  induction l with
  | nil => rfl
  | cons a as ih =>
    simp only [cmpPaddedNil, cmpNilPadded]
    rw [natCmp_swap a 0]
    rcases h : natCmp 0 a with _ | _ | _ <;> simp [h, Ordering.swap, ih]

theorem cmpNilPadded_append_zero (b : List Nat) :
    cmpNilPadded (b ++ [0]) = cmpNilPadded b := by
  induction b with
  | nil => rfl
  | cons x xs ih =>
    simp only [List.cons_append, cmpNilPadded]
    rcases h : natCmp 0 x with _ | _ | _ <;> simp [h, ih]

theorem cmpPadded_append_zero_right (a : List Nat) :
    ∀ b : List Nat, cmpPadded a (b ++ [0]) = cmpPadded a b := by
  induction a with
  | nil => exact fun b => cmpNilPadded_append_zero b
  | cons x xs ih =>
    intro b
    cases b with
    | nil =>
      show cmpPadded (x :: xs) [0] = cmpPadded (x :: xs) []
      rw [cmpPadded_nil_right]
      simp only [cmpPadded, cmpPaddedNil]
      rcases h : natCmp x 0 with _ | _ | _ <;> simp [h, cmpPadded_nil_right]
    | cons y ys =>
      simp only [List.cons_append, cmpPadded]
      rcases h : natCmp x y with _ | _ | _ <;> simp [h, ih]

theorem cmpPadded_swap (a : List Nat) : ∀ b : List Nat, cmpPadded a b = (cmpPadded b a).swap := by
  induction a with
  | nil =>
    intro b
    rw [cmpPadded_nil_right, cmpPaddedNil_eq_swap, Ordering.swap_swap]
    rfl
  | cons x xs ih =>
    intro b
    cases b with
    | nil =>
      rw [cmpPadded_nil_right]
      exact cmpPaddedNil_eq_swap _
    | cons y ys =>
      simp only [cmpPadded]
      rw [natCmp_swap x y]
      rcases h : natCmp y x with _ | _ | _ <;> simp [h, Ordering.swap, ih ys]

theorem cmpPadded_refl (l : List Nat) : cmpPadded l l = .eq := by
  induction l with
  | nil => rfl
  | cons x xs ih => simp [cmpPadded, natCmp_self, ih]

theorem cmpPadded_append_replicate_right (k : Nat) :
    ∀ a b : List Nat, cmpPadded a (b ++ List.replicate k 0) = cmpPadded a b := by
  induction k with
  | zero => simp
  | succ n ih =>
    intro a b
    have hsplit : b ++ List.replicate (n + 1) 0 = (b ++ [0]) ++ List.replicate n 0 := by
      rw [List.replicate_succ, List.append_cons]
    rw [hsplit, ih, cmpPadded_append_zero_right]

theorem cmpPadded_append_replicate_left (k : Nat) (a b : List Nat) :
    cmpPadded (a ++ List.replicate k 0) b = cmpPadded a b := by
  rw [cmpPadded_swap, cmpPadded_append_replicate_right, ← cmpPadded_swap]

theorem cmpPadded_padTo (n m : Nat) (a b : List Nat) :
    cmpPadded (padTo n a) (padTo m b) = cmpPadded a b := by
  unfold padTo
  rw [cmpPadded_append_replicate_left, cmpPadded_append_replicate_right]

theorem length_padTo {n : Nat} {l : List Nat} (h : l.length ≤ n) : (padTo n l).length = n := by
  simp only [padTo, List.length_append, List.length_replicate]
  omega

theorem cmpPadded_eq_iff_of_length {a : List Nat} :
    ∀ {b : List Nat}, a.length = b.length → (cmpPadded a b = .eq ↔ a = b) := by
  induction a with
  | nil =>
    intro b h
    cases b with
    | nil => simp [cmpPadded, cmpNilPadded]
    | cons y ys => simp at h
  | cons x xs ih =>
    intro b h
    cases b with
    | nil => simp at h
    | cons y ys =>
      simp only [List.length_cons] at h
      have h1 : xs.length = ys.length := by omega
      simp only [cmpPadded]
      rcases hc : natCmp x y with _ | _ | _
      · simp only [hc]
        constructor
        · intro hh
          cases hh
        · intro hh
          injection hh with hx hxs
          subst hx
          rw [natCmp_self] at hc
          cases hc
      · have hx : x = y := natCmp_eq_iff.mp hc
        subst hx
        simp only [hc, ih h1]
        simp
      · simp only [hc]
        constructor
        · intro hh
          cases hh
        · intro hh
          injection hh with hx hxs
          subst hx
          rw [natCmp_self] at hc
          cases hc

theorem cmpPadded_lt_trans_of_length {a : List Nat} :
    ∀ {b c : List Nat}, a.length = b.length → b.length = c.length →
      cmpPadded a b = .lt → cmpPadded b c = .lt → cmpPadded a c = .lt := by
  induction a with
  | nil =>
    intro b c hab hbc h₁ h₂
    cases b with
    | nil => exact absurd h₁ (by decide)
    | cons y ys => simp at hab
  | cons x xs ih =>
    intro b c hab hbc h₁ h₂
    cases b with
    | nil => simp at hab
    | cons y ys =>
      cases c with
      | nil => simp at hbc
      | cons z zs =>
        simp only [List.length_cons] at hab hbc
        simp only [cmpPadded] at h₁ h₂ ⊢
        rcases hxy : natCmp x y with _ | _ | _ <;> rw [hxy] at h₁
        · rcases hyz : natCmp y z with _ | _ | _ <;> rw [hyz] at h₂
          · rw [natCmp_lt_iff.mpr (Nat.lt_trans (natCmp_lt_iff.mp hxy) (natCmp_lt_iff.mp hyz))]
          · rw [natCmp_lt_iff.mpr ((natCmp_eq_iff.mp hyz) ▸ natCmp_lt_iff.mp hxy)]
          · cases h₂
        · rcases hyz : natCmp y z with _ | _ | _ <;> rw [hyz] at h₂
          · have hxy2 : x = y := natCmp_eq_iff.mp hxy
            subst hxy2
            rw [hyz]
          · have hxy2 : x = y := natCmp_eq_iff.mp hxy
            have hyz2 : y = z := natCmp_eq_iff.mp hyz
            subst hxy2
            subst hyz2
            rw [natCmp_self]
            exact ih (by omega) (by omega) h₁ h₂
          · cases h₂
        · cases h₁

theorem cmpPadded_eq_padTo {a b : List Nat} {n : Nat} (ha : a.length ≤ n) (hb : b.length ≤ n) :
    cmpPadded a b = .eq ↔ padTo n a = padTo n b := by
  rw [← cmpPadded_padTo n n a b]
  exact cmpPadded_eq_iff_of_length (by rw [length_padTo ha, length_padTo hb])

theorem cmpPadded_lt_trans {a b c : List Nat}
    (h₁ : cmpPadded a b = .lt) (h₂ : cmpPadded b c = .lt) : cmpPadded a c = .lt := by
  set N := max (max a.length b.length) c.length with hN
  have hA : a.length ≤ N := by omega
  have hB : b.length ≤ N := by omega
  have hC : c.length ≤ N := by omega
  rw [← cmpPadded_padTo N N a b] at h₁
  rw [← cmpPadded_padTo N N b c] at h₂
  rw [← cmpPadded_padTo N N a c]
  exact cmpPadded_lt_trans_of_length
    (by rw [length_padTo hA, length_padTo hB])
    (by rw [length_padTo hB, length_padTo hC]) h₁ h₂

theorem cmpPadded_congr_left {a b c : List Nat} (h : cmpPadded a b = .eq) :
    cmpPadded a c = cmpPadded b c := by
  set N := max (max a.length b.length) c.length with hN
  have hA : a.length ≤ N := by omega
  have hB : b.length ≤ N := by omega
  have hpad : padTo N a = padTo N b := (cmpPadded_eq_padTo hA hB).mp h
  rw [← cmpPadded_padTo N N a c, ← cmpPadded_padTo N N b c, hpad]

theorem cmpPadded_congr_right {a b c : List Nat} (h : cmpPadded b c = .eq) :
    cmpPadded a b = cmpPadded a c := by
  set N := max (max a.length b.length) c.length with hN
  have hB : b.length ≤ N := by omega
  have hC : c.length ≤ N := by omega
  have hpad : padTo N b = padTo N c := (cmpPadded_eq_padTo hB hC).mp h
  rw [← cmpPadded_padTo N N a b, ← cmpPadded_padTo N N a c, hpad]

end Ovc

namespace Ovc

theorem compareVersionsChars_swap (a b : List Char) :
    compareVersionsChars a b = (compareVersionsChars b a).swap := by
  simp only [compareVersionsChars]
  rw [cmpPadded_swap]
  rcases h : cmpPadded (parse_version b).version_parts (parse_version a).version_parts
    with _ | _ | _
  · rfl
  · show tieBreak a b (parse_version a) (parse_version b)
      = (tieBreak b a (parse_version b) (parse_version a)).swap
    unfold tieBreak
    cases hpa : (parse_version a).is_prerelease <;> cases hpb : (parse_version b).is_prerelease
    · exact lexCmp_swap a b
    · rfl
    · rfl
    · exact lexCmp_swap _ _
  · rfl

theorem compareVersionsChars_refl (a : List Char) : compareVersionsChars a a = .eq := by
  simp only [compareVersionsChars]
  rw [cmpPadded_refl]
  show tieBreak a a (parse_version a) (parse_version a) = .eq
  unfold tieBreak
  cases hpa : (parse_version a).is_prerelease
  · exact lexCmp_refl a
  · exact lexCmp_refl _

theorem tieBreak_le_trans {a b c : List Char} {pa pb pc : ParsedVersion}
    (hab : tieBreak a b pa pb ≠ .gt) (hbc : tieBreak b c pb pc ≠ .gt) :
    tieBreak a c pa pc ≠ .gt := by
  cases hpa : pa.is_prerelease <;> cases hpb : pb.is_prerelease <;>
    cases hpc : pc.is_prerelease <;>
      simp only [tieBreak, hpa, hpb, hpc] at hab hbc ⊢
  · exact lexCmp_le_trans hab hbc
  · exact absurd rfl hbc
  · exact absurd rfl hab
  · exact absurd rfl hab
  · simp
  · exact absurd rfl hbc
  · simp
  · exact lexCmp_le_trans hab hbc

theorem compareVersionsChars_le_trans {a b c : List Char}
    (hab : compareVersionsChars a b ≠ .gt) (hbc : compareVersionsChars b c ≠ .gt) :
    compareVersionsChars a c ≠ .gt := by
  simp only [compareVersionsChars] at hab hbc ⊢
  rcases h₁ : cmpPadded (parse_version a).version_parts (parse_version b).version_parts
    with _ | _ | _ <;> rw [h₁] at hab
  · rcases h₂ : cmpPadded (parse_version b).version_parts (parse_version c).version_parts
      with _ | _ | _ <;> rw [h₂] at hbc
    · rw [cmpPadded_lt_trans h₁ h₂]
      simp
    · rw [← cmpPadded_congr_right h₂, h₁]
      simp
    · exact absurd rfl hbc
  · rcases h₂ : cmpPadded (parse_version b).version_parts (parse_version c).version_parts
      with _ | _ | _ <;> rw [h₂] at hbc
    · rw [cmpPadded_congr_left h₁, h₂]
      simp
    · have hac : cmpPadded (parse_version a).version_parts (parse_version c).version_parts
          = .eq := by
        rw [cmpPadded_congr_left h₁, h₂]
      rw [hac]
      exact tieBreak_le_trans hab hbc
    · exact absurd rfl hbc
  · exact absurd rfl hab

theorem versionLe_iff {a b : String} : versionLe a b = true ↔ compare_versions a b ≠ .gt := by
  unfold versionLe
  rcases compare_versions a b with _ | _ | _ <;> decide

theorem versionLe_refl (a : String) : versionLe a a = true := by
  rw [versionLe_iff]
  unfold compare_versions
  rw [compareVersionsChars_refl]
  simp

theorem versionLe_trans {a b c : String}
    (hab : versionLe a b = true) (hbc : versionLe b c = true) : versionLe a c = true := by
  rw [versionLe_iff] at hab hbc ⊢
  exact compareVersionsChars_le_trans hab hbc

theorem versionLe_total (a b : String) : versionLe a b || versionLe b a := by
  rcases h : compare_versions a b with _ | _ | _
  · rw [versionLe_iff.mpr (by simp [h])]
    simp
  · rw [versionLe_iff.mpr (by simp [h])]
    simp
  · have hba : compare_versions b a = .lt := by
      unfold compare_versions at h ⊢
      rw [compareVersionsChars_swap] at h
      revert h
      cases compareVersionsChars b.data a.data <;> decide
    have h2 : versionLe b a = true := versionLe_iff.mpr (by simp [hba])
    simp [h2]

end Ovc

namespace Ovc

/-- C5: for every pair of version strings, `compare_versions a b` and
`compare_versions b a` are inverse orderings: Less on one side is Greater on
the other, and Equal is Equal on both. -/
theorem claim_C5 (a b : String) :
    (compare_versions a b = .lt ↔ compare_versions b a = .gt)
  ∧ (compare_versions a b = .eq ↔ compare_versions b a = .eq) := by
  have hs : compare_versions a b = (compare_versions b a).swap :=
    compareVersionsChars_swap a.data b.data
  rw [hs]
  cases compare_versions b a <;> exact ⟨by decide, by decide⟩

theorem parse_version_checked_eq (v : List Char) :
    parse_version_checked v = some (parse_version v) := by
  unfold parse_version_checked parse_version
  rcases h : splitChar '-' v with _ | ⟨p, ps⟩
  · exact absurd h (splitChar_ne_nil '-' v)
  · simp [h]

/-- C8: `compare_versions` is total and never panics: the `parts[0]` index
is always in bounds because splitting any string on `-` yields at least one
piece, and the checked variant (in which the index and every numeric parse
are fallible) always returns the same defined ordering, including on empty
strings, hyphen-only strings, and strings with no numeric segments. -/
theorem claim_C8 (a b : String) :
    splitChar '-' a.data ≠ []
  ∧ compare_versions_checked a b = some (compare_versions a b)
  ∧ compare_versions "" "" = .eq
  ∧ compare_versions "-" "--" = .lt
  ∧ compare_versions "abc" "def" = .lt := by
  refine ⟨splitChar_ne_nil '-' a.data, ?_, by decide, by decide, by decide⟩
  unfold compare_versions_checked compare_versions compareVersionsChars
  rw [parse_version_checked_eq, parse_version_checked_eq]
  simp only [Option.bind_eq_bind, Option.bind]
  cases cmpPadded (parse_version a.data).version_parts (parse_version b.data).version_parts <;>
    rfl

theorem is_prerelease_iff {v : List Char} :
    (parse_version v).is_prerelease = true ↔ '-' ∈ v := by
  simp only [parse_version, decide_eq_true_eq, gt_iff_lt]
  exact mem_iff_one_lt_splitChar_length.symm

theorem is_prerelease_eq_false {v : List Char} (h : '-' ∉ v) :
    (parse_version v).is_prerelease = false := by
  rcases hf : (parse_version v).is_prerelease
  · rfl
  · exact absurd (is_prerelease_iff.mp hf) h

theorem compare_of_padded_eq {a b : String}
    (heq : cmpPadded (parse_version a.data).version_parts
      (parse_version b.data).version_parts = .eq) :
    compare_versions a b
      = tieBreak a.data b.data (parse_version a.data) (parse_version b.data) := by
  unfold compare_versions
  simp only [compareVersionsChars, heq]

/-- C3: when the numeric component sequences of `a` and `b` are equal after
zero-padding, a pre-release string (one containing `-`) compares Less than a
non-pre-release one, two pre-release strings compare by codepoint-lexicographic
order of their pre-release suffixes, and in particular
`compare_versions "4.19.0-rc.10" "4.19.0-rc.2"` is Less. -/
theorem claim_C3 (a b : String)
    (hpad : padTo (max (parse_version a.data).version_parts.length
          (parse_version b.data).version_parts.length)
        (parse_version a.data).version_parts
      = padTo (max (parse_version a.data).version_parts.length
          (parse_version b.data).version_parts.length)
        (parse_version b.data).version_parts) :
    (('-' ∈ a.data ∧ '-' ∉ b.data) → compare_versions a b = .lt)
  ∧ (('-' ∈ a.data ∧ '-' ∈ b.data) →
      compare_versions a b
        = lexCmp (parse_version a.data).prerelease_suffix
            (parse_version b.data).prerelease_suffix)
  ∧ compare_versions "4.19.0-rc.10" "4.19.0-rc.2" = .lt := by
  have heq : cmpPadded (parse_version a.data).version_parts
      (parse_version b.data).version_parts = .eq :=
    (cmpPadded_eq_padTo (Nat.le_max_left _ _) (Nat.le_max_right _ _)).mpr hpad
  refine ⟨?_, ?_, by decide⟩
  · rintro ⟨ha, hb⟩
    rw [compare_of_padded_eq heq]
    simp [tieBreak, is_prerelease_iff.mpr ha, is_prerelease_eq_false hb]
  · rintro ⟨ha, hb⟩
    rw [compare_of_padded_eq heq]
    simp [tieBreak, is_prerelease_iff.mpr ha, is_prerelease_iff.mpr hb]

/-- Witness for C3 at `a = "4.19.0-rc.1"`, `b = "4.19.0"`. -/
theorem claim_C3_witness : compare_versions "4.19.0-rc.1" "4.19.0" = .lt :=
  (claim_C3 "4.19.0-rc.1" "4.19.0" (by decide)).1 ⟨by decide, by decide⟩

/-- C4: when the numeric component sequences are equal after zero-padding and
neither string contains `-`, `compare_versions` is the codepoint-lexicographic
comparison of the two original strings; in particular
`compare_versions "4.19.0 EUS" "4.19.0"` is Greater and
`compare_versions "4.1" "4.1.0"` is Less. -/
theorem claim_C4 (a b : String)
    (hpad : padTo (max (parse_version a.data).version_parts.length
          (parse_version b.data).version_parts.length)
        (parse_version a.data).version_parts
      = padTo (max (parse_version a.data).version_parts.length
          (parse_version b.data).version_parts.length)
        (parse_version b.data).version_parts)
    (ha : '-' ∉ a.data) (hb : '-' ∉ b.data) :
    compare_versions a b = lexCmp a.data b.data
  ∧ compare_versions "4.19.0 EUS" "4.19.0" = .gt
  ∧ compare_versions "4.1" "4.1.0" = .lt := by
  have heq : cmpPadded (parse_version a.data).version_parts
      (parse_version b.data).version_parts = .eq :=
    (cmpPadded_eq_padTo (Nat.le_max_left _ _) (Nat.le_max_right _ _)).mpr hpad
  refine ⟨?_, by decide, by decide⟩
  rw [compare_of_padded_eq heq]
  simp [tieBreak, is_prerelease_eq_false ha, is_prerelease_eq_false hb]

/-- Witness for C4 at `a = "4.1"`, `b = "4.1.0"`. -/
theorem claim_C4_witness :
    compare_versions "4.1" "4.1.0" = lexCmp "4.1".data "4.1.0".data
  ∧ lexCmp "4.1".data "4.1.0".data = .lt :=
  ⟨(claim_C4 "4.1" "4.1.0" (by decide) (by decide) (by decide)).1, by decide⟩

end Ovc

namespace Ovc

theorem isDigit_not_isWhitespace {c : Char} (h : c.isDigit = true) : c.isWhitespace = false := by
  rcases hw : c.isWhitespace
  · rfl
  · exfalso
    simp only [Char.isWhitespace, Bool.or_eq_true, decide_eq_true_eq] at hw
    rcases hw with ((rfl | rfl) | rfl) | rfl <;> exact absurd h (by decide)

/-- C9: numeric components are parsed as 32-bit unsigned integers: an all-digit
segment whose value exceeds 4294967295 fails the parse and is dropped entirely
from the numeric component sequence (neither compared by magnitude nor treated
as zero), so `"1.4294967296.7"` parses to components `[1, 7]` while
`"1.4294967295.7"` keeps all three, and `compare_versions "1.4294967296" "1"`
falls through to the tie-break rules on the shorter sequence, giving Greater
by the lexicographic fallback. -/
theorem claim_C9 :
    (∀ l : List Char, l ≠ [] → (∀ c ∈ l, c.isDigit = true) → 4294967295 < digitsToNat l →
      parseU32 l = none ∧ segmentParse l = none)
  ∧ (parse_version "1.4294967296.7".data).version_parts = [1, 7]
  ∧ (parse_version "1.4294967295.7".data).version_parts = [1, 4294967295, 7]
  ∧ compare_versions "1.4294967296" "1" = .gt := by
  refine ⟨?_, by decide, by decide, by decide⟩
  intro l hne hdig hbig
  have hp : parseU32 l = none := by
    simp only [parseU32]
    have hplus : (if l.head? = some '+' then l.tail else l) = l := by
      cases l with
      | nil => rfl
      | cons c cs =>
        have hc := hdig c (List.mem_cons_self c cs)
        have hcp : c ≠ '+' := by
          rintro rfl
          exact absurd hc (by decide)
        simp [hcp]
    rw [hplus, if_neg hne, if_pos (List.all_eq_true.mpr hdig), if_neg (by omega)]
  refine ⟨hp, ?_⟩
  unfold segmentParse
  have hdrop : l.dropWhile Char.isWhitespace = l := by
    cases l with
    | nil => rfl
    | cons c cs =>
      have hc := hdig c (List.mem_cons_self c cs)
      rw [List.dropWhile_cons_of_neg]
      simp [isDigit_not_isWhitespace hc]
  have htok : firstWhitespaceToken l = some l := by
    unfold firstWhitespaceToken
    rw [hdrop]
    cases l with
    | nil => exact absurd rfl hne
    | cons c cs =>
      have hall : ∀ x ∈ c :: cs, (!x.isWhitespace) = true := by
        intro x hx
        simp [isDigit_not_isWhitespace (hdig x hx)]
      show some (List.takeWhile (fun ch => !ch.isWhitespace) (c :: cs)) = some (c :: cs)
      rw [List.takeWhile_eq_self_iff.mpr hall]
  rw [htok]
  simpa using hp

/-- Witness for C9 at the all-digit token `"4294967296"`. -/
theorem claim_C9_witness :
    parseU32 "4294967296".data = none ∧ segmentParse "4294967296".data = none :=
  claim_C9.1 "4294967296".data (by decide) (by decide) (by decide)

theorem pairwise_le_getLast {α : Type} {r : α → α → Prop} :
    ∀ (l : List α) (m : α), l.Pairwise r → l.getLast? = some m → (∀ x, r x x) →
      ∀ x ∈ l, r x m := by
  intro l
  induction l with
  | nil =>
    intro m _ hm
    cases hm
  | cons a t ih =>
    intro m hp hm hrefl x hx
    cases t with
    | nil =>
      have hma : a = m := by
        have : some a = some m := by simpa using hm
        injection this
      have hxa : x = a := by simpa using hx
      subst hma
      subst hxa
      exact hrefl x
    | cons b t2 =>
      rw [List.getLast?_cons_cons] at hm
      rcases List.mem_cons.mp hx with rfl | hx2
      · have hmem : m ∈ b :: t2 := List.mem_of_getLast?_eq_some hm
        exact (List.pairwise_cons.mp hp).1 m hmem
      · exact ih m (List.pairwise_cons.mp hp).2 hm hrefl x hx2

theorem contains_iff_mem {l : List String} {a : String} : l.contains a = true ↔ a ∈ l := by
  simp [List.contains, List.elem_iff]

end Ovc

namespace Ovc

/-- C1: `find_matching_version` returns the requested string immediately when
it occurs verbatim in the list; otherwise it returns nothing when the request
has fewer than two dot-separated components; otherwise it filters the list to
entries starting (plain prefix) with the request's `major.minor`, returns
nothing when no candidate remains, and otherwise returns a maximum of the
candidates under `compare_versions` (the last element of the ascending
stable sort). -/
theorem claim_C1 (server_version : String) (available_versions : List String) :
    (server_version ∈ available_versions →
      find_matching_version server_version available_versions = some server_version)
  ∧ (server_version ∉ available_versions →
      (splitChar '.' server_version.data).length < 2 →
      find_matching_version server_version available_versions = none)
  ∧ (server_version ∉ available_versions →
      2 ≤ (splitChar '.' server_version.data).length →
      available_versions.filter (fun v => startsWithChars
          ((splitChar '.' server_version.data).headD [] ++
            '.' :: (splitChar '.' server_version.data).tail.headD []) v.data) = [] →
      find_matching_version server_version available_versions = none)
  ∧ (server_version ∉ available_versions →
      2 ≤ (splitChar '.' server_version.data).length →
      available_versions.filter (fun v => startsWithChars
          ((splitChar '.' server_version.data).headD [] ++
            '.' :: (splitChar '.' server_version.data).tail.headD []) v.data) ≠ [] →
      ∃ m, find_matching_version server_version available_versions = some m
        ∧ m ∈ available_versions.filter (fun v => startsWithChars
            ((splitChar '.' server_version.data).headD [] ++
              '.' :: (splitChar '.' server_version.data).tail.headD []) v.data)
        ∧ ∀ x ∈ available_versions.filter (fun v => startsWithChars
            ((splitChar '.' server_version.data).headD [] ++
              '.' :: (splitChar '.' server_version.data).tail.headD []) v.data),
            compare_versions x m ≠ .gt) := by
  refine ⟨?_, ?_, ?_, ?_⟩
  · intro h
    simp only [find_matching_version]
    rw [if_pos (contains_iff_mem.mpr h)]
  · intro h hlen
    simp only [find_matching_version]
    rw [if_neg (fun hc => h (contains_iff_mem.mp hc)), if_pos hlen]
  · intro h hlen hfil
    simp only [find_matching_version]
    rw [if_neg (fun hc => h (contains_iff_mem.mp hc)), if_neg (by omega),
      if_pos (List.isEmpty_eq_true.mpr hfil)]
  · intro h hlen hcand
    simp only [find_matching_version]
    rw [if_neg (fun hc => h (contains_iff_mem.mp hc)), if_neg (by omega),
      if_neg (fun hc => hcand (List.isEmpty_eq_true.mp hc))]
    set cands := available_versions.filter (fun v => startsWithChars
        ((splitChar '.' server_version.data).headD [] ++
          '.' :: (splitChar '.' server_version.data).tail.headD []) v.data) with hcands
    have hsne : cands.mergeSort versionLe ≠ [] := by
      intro hnil
      apply hcand
      have hlen0 := congrArg List.length hnil
      rw [List.length_mergeSort] at hlen0
      exact List.length_eq_zero.mp hlen0
    rcases hm : (cands.mergeSort versionLe).getLast? with _ | m
    · rw [List.getLast?_eq_none_iff] at hm
      exact absurd hm hsne
    · refine ⟨m, rfl, ?_, ?_⟩
      · exact List.mem_mergeSort.mp (List.mem_of_getLast?_eq_some hm)
      · intro x hx
        have htrans : ∀ (p q r : String), versionLe p q = true → versionLe q r = true →
            versionLe p r = true := fun p q r hpq hqr => versionLe_trans hpq hqr
        have htotal : ∀ (p q : String), (versionLe p q || versionLe q p) = true :=
          fun p q => versionLe_total p q
        have hpair : (cands.mergeSort versionLe).Pairwise
            (fun p q => versionLe p q = true) :=
          List.sorted_mergeSort htrans htotal cands
        have hx2 : x ∈ cands.mergeSort versionLe := List.mem_mergeSort.mpr hx
        have hle := pairwise_le_getLast (cands.mergeSort versionLe) m hpair hm
          (fun s => versionLe_refl s) x hx2
        exact versionLe_iff.mp hle

/-- Witness for C1 at a request absent from the list whose series has a
single candidate. -/
theorem claim_C1_witness :
    ∃ m, find_matching_version "4.19" ["4.20.0", "4.19.3"] = some m
      ∧ m ∈ (["4.20.0", "4.19.3"].filter (fun v => startsWithChars
          ((splitChar '.' "4.19".data).headD [] ++
            '.' :: (splitChar '.' "4.19".data).tail.headD []) v.data))
      ∧ ∀ x ∈ (["4.20.0", "4.19.3"].filter (fun v => startsWithChars
          ((splitChar '.' "4.19".data).headD [] ++
            '.' :: (splitChar '.' "4.19".data).tail.headD []) v.data)),
          compare_versions x m ≠ .gt :=
  (claim_C1 "4.19" ["4.20.0", "4.19.3"]).2.2.2 (by decide) (by decide) (by decide)

end Ovc

namespace Ovc

theorem decodeList_map_eq_some {α : Type} (dec : Json → Option α) (enc : α → Json)
    (h : ∀ x, dec (enc x) = some x) : ∀ l : List α, decodeList dec (l.map enc) = some l := by
  intro l
  induction l with
  | nil => rfl
  | cons x xs ih =>
    simp [decodeList, h x, ih, Option.bind_eq_bind, Option.bind]

theorem decodeUrls_encodeUrls (urls : List (String × String)) :
    decodeUrls (encodeUrls urls) = some urls := by
  simp only [encodeUrls, decodeUrls]
  induction urls with
  | nil => rfl
  | cons kv rest ih =>
    simp [decodeUrlFields, decodeString, ih, Option.bind_eq_bind, Option.bind]

theorem decodeVersionInfo_encode (v : VersionInfo) :
    decodeVersionInfo (encodeVersionInfo v) = some v := by
  simp [decodeVersionInfo, encodeVersionInfo, jsonField, decodeString,
    decodeUrls_encodeUrls, Option.bind_eq_bind]

theorem decodeVersionCacheJson_encode (c : VersionCache) :
    decodeVersionCacheJson (encodeVersionCache c) = some c := by
  have hv : decodeList decodeVersionInfo (c.versions.map encodeVersionInfo)
      = some c.versions :=
    decodeList_map_eq_some _ _ decodeVersionInfo_encode c.versions
  simp [decodeVersionCacheJson, encodeVersionCache, jsonField, decodeString,
    Option.bind_eq_bind, hv]

theorem build_version_info_cons (w : String) (ws : List String) :
    build_version_info (w :: ws)
      = ⟨w, [("linux-x86_64", Platform.LINUX_X86_64.build_download_url w)]⟩
        :: build_version_info ws := rfl

theorem find_build_version_info {vs : List String} {v : String} (hv : v ∈ vs) :
    ((build_version_info vs).find? (fun vi => vi.version == v)).bind
        (fun vi => mapGet vi.urls "linux-x86_64")
      = some (Platform.LINUX_X86_64.build_download_url v) := by
  induction vs with
  | nil => cases hv
  | cons w ws ih =>
    rw [build_version_info_cons, List.find?_cons]
    by_cases hw : w = v
    · subst hw
      simp [mapGet]
    · have hbeq : (w == v) = false := beq_eq_false_iff_ne.mpr hw
      simp only [hbeq]
      rcases List.mem_cons.mp hv with rfl | hv2
      · exact absurd rfl hw
      · exact ih hv2

end Ovc

namespace Ovc

/-- Counterexample to C2 as stated: migrating the legacy cache file
`{"versions":["4.19.0"],"timestamp":"2024-01-01T00:00:00Z"}` synthesizes an
entry for the version, but its `urls` map has no URL for the known platform
descriptor `LINUX_ARM64` (or any descriptor other than `LINUX_X86_64`),
because `build_version_info`'s platform table holds only `LINUX_X86_64`. -/
theorem claim_C2_counterexample :
    Platform.LINUX_ARM64 ∈ knownPlatforms
  ∧ ∃ c, (load_cached_versions "2025-06-01T00:00:00Z"
        ⟨some (.json (.obj [("versions", .arr [.str "4.19.0"]),
          ("timestamp", .str "2024-01-01T00:00:00Z")])), true⟩).1 = .ok (some c)
      ∧ c.has_version "4.19.0" = true
      ∧ c.get_download_url "4.19.0" Platform.LINUX_ARM64.name = none := by
  refine ⟨?_, ⟨build_version_info ["4.19.0"], "2024-01-01T00:00:00Z"⟩, rfl, rfl, rfl⟩
  unfold knownPlatforms
  exact List.mem_cons_of_mem _ (List.mem_cons_self _ _)

/-- C2 (amended): for every cache file that parses as the legacy format but
not the current one, `load_cached_versions` returns a cache with a
`VersionInfo` entry for every legacy version carrying a download URL for each
platform in the migration's platform table — which is exactly
`[Platform.LINUX_X86_64]`, not every known platform descriptor — preserves
the legacy timestamp in the returned cache, and writes the upgraded form back
best-effort: a write failure leaves the file untouched and is swallowed, the
migrated cache being returned either way. -/
theorem claim_C2 (st : CacheState) (j : Json) (lc : LegacyVersionCache) (now : String)
    (hfile : st.file = some (.json j))
    (hcur : decodeVersionCacheJson j = none)
    (hleg : decodeLegacyVersionCacheJson j = some lc) :
    ∃ c, (load_cached_versions now st).1 = .ok (some c)
      ∧ c.versions = build_version_info lc.versions
      ∧ c.timestamp = lc.timestamp
      ∧ (∀ v ∈ lc.versions, c.get_download_url v Platform.LINUX_X86_64.name
          = some (Platform.LINUX_X86_64.build_download_url v))
      ∧ (load_cached_versions now st).2
          = (if st.writeOk then
              { st with file := some (.json (encodeVersionCache
                  ⟨build_version_info lc.versions, now⟩)) }
            else st) := by
  refine ⟨⟨build_version_info lc.versions, lc.timestamp⟩, ?_, rfl, rfl, ?_, ?_⟩
  · unfold load_cached_versions
    rw [hfile]
    simp only [decodeCacheFile, decodeLegacyCacheFile, hcur, hleg]
  · intro v hv
    exact find_build_version_info hv
  · unfold load_cached_versions
    rw [hfile]
    simp only [decodeCacheFile, decodeLegacyCacheFile, hcur, hleg]
    unfold save_cached_versions
    rcases hwk : st.writeOk
    · simp [hwk]
    · simp [hwk]

/-- Witness for C2 at the concrete legacy file of the counterexample, with
writes succeeding. -/
theorem claim_C2_witness :
    ∃ c, (load_cached_versions "2025-06-01T00:00:00Z"
        ⟨some (.json (.obj [("versions", .arr [.str "4.19.0"]),
          ("timestamp", .str "2024-01-01T00:00:00Z")])), true⟩).1 = .ok (some c)
      ∧ c.versions = build_version_info ["4.19.0"]
      ∧ c.timestamp = "2024-01-01T00:00:00Z"
      ∧ (∀ v ∈ ["4.19.0"], c.get_download_url v Platform.LINUX_X86_64.name
          = some (Platform.LINUX_X86_64.build_download_url v))
      ∧ (load_cached_versions "2025-06-01T00:00:00Z"
          ⟨some (.json (.obj [("versions", .arr [.str "4.19.0"]),
            ("timestamp", .str "2024-01-01T00:00:00Z")])), true⟩).2
        = (if (⟨some (.json (.obj [("versions", .arr [.str "4.19.0"]),
              ("timestamp", .str "2024-01-01T00:00:00Z")])), true⟩ : CacheState).writeOk then
            { (⟨some (.json (.obj [("versions", .arr [.str "4.19.0"]),
                ("timestamp", .str "2024-01-01T00:00:00Z")])), true⟩ : CacheState) with
              file := some (.json (encodeVersionCache
                ⟨build_version_info ["4.19.0"], "2025-06-01T00:00:00Z"⟩)) }
          else ⟨some (.json (.obj [("versions", .arr [.str "4.19.0"]),
            ("timestamp", .str "2024-01-01T00:00:00Z")])), true⟩) :=
  claim_C2 _ _ ⟨["4.19.0"], "2024-01-01T00:00:00Z"⟩ _ rfl rfl rfl

/-- C6: cache round-trip. After a successful save of a list of `VersionInfo`,
loading returns a cache whose entries are exactly the saved list, whose
version strings come back in the saved order, and in which
`get_download_url v p` is exactly the URL stored for version `v` and platform
`p` in the saved list. -/
theorem claim_C6 (versions : List VersionInfo) (now later : String) (st : CacheState)
    (hw : st.writeOk = true) :
    (save_cached_versions versions now st).1 = .ok ()
  ∧ ∃ c, (load_cached_versions later (save_cached_versions versions now st).2).1
        = .ok (some c)
    ∧ c.versions = versions
    ∧ c.get_version_strings = versions.map (fun vi => vi.version)
    ∧ ∀ v p, c.get_download_url v p
        = (versions.find? (fun vi => vi.version == v)).bind (fun vi => mapGet vi.urls p) := by
  unfold save_cached_versions
  rw [if_pos hw]
  refine ⟨rfl, ⟨versions, now⟩, ?_, rfl, rfl, fun v p => rfl⟩
  unfold load_cached_versions
  simp only [decodeCacheFile, decodeVersionCacheJson_encode]

/-- Witness for C6 at the round-trip example of the spec. -/
theorem claim_C6_witness :
    (save_cached_versions [VersionInfo.mk "4.19.0" [("linux-x86_64", "https://x")]] "t0"
      ⟨none, true⟩).1 = .ok ()
  ∧ ∃ c, (load_cached_versions "t1"
        (save_cached_versions [VersionInfo.mk "4.19.0" [("linux-x86_64", "https://x")]] "t0"
          ⟨none, true⟩).2).1 = .ok (some c)
    ∧ c.versions = [VersionInfo.mk "4.19.0" [("linux-x86_64", "https://x")]]
    ∧ c.get_version_strings
        = [VersionInfo.mk "4.19.0" [("linux-x86_64", "https://x")]].map (fun vi => vi.version)
    ∧ ∀ v p, c.get_download_url v p
        = ([VersionInfo.mk "4.19.0" [("linux-x86_64", "https://x")]].find?
            (fun vi => vi.version == v)).bind (fun vi => mapGet vi.urls p) :=
  claim_C6 [VersionInfo.mk "4.19.0" [("linux-x86_64", "https://x")]] "t0" "t1" ⟨none, true⟩ rfl

/-- C7: a cache file whose content parses as neither the current nor the
legacy format is deleted, and `load_cached_versions` returns success with no
cache (no error reaches the caller). -/
theorem claim_C7 (st : CacheState) (content : CacheFileContent) (now : String)
    (hfile : st.file = some content)
    (hcur : decodeCacheFile content = none)
    (hleg : decodeLegacyCacheFile content = none) :
    load_cached_versions now st = (.ok none, { st with file := none }) := by
  unfold load_cached_versions
  rw [hfile]
  simp only [hcur, hleg]

/-- Witness for C7 at non-JSON file content. -/
theorem claim_C7_witness :
    load_cached_versions "t" ⟨some .notJson, true⟩ = (.ok none, ⟨none, true⟩) :=
  claim_C7 ⟨some .notJson, true⟩ .notJson "t" rfl rfl rfl

/-- C10: when the loaded cache has an entry for version `V` whose `urls` map
lacks the queried platform, `version_exists_in_cache V p true` returns
`Ok (Some false)` without any network fetch and without touching the cache
file: the miss check `get_download_url` fails on the URL, but
`update_cache_for_missing_version` decides by `has_version`, which succeeds,
so no refetch or overwrite happens. -/
theorem claim_C10 (st : CacheState) (j : Json) (c : VersionCache) (V : String) (p : Platform)
    (mirror : List String) (now : String)
    (hfile : st.file = some (.json j))
    (hdec : decodeVersionCacheJson j = some c)
    (hhas : c.has_version V = true)
    (hurl : c.get_download_url V p.name = none) :
    version_exists_in_cache mirror V p true now st = (.ok (some false), st, false) := by
  have hload : load_cached_versions now st = (.ok (some c), st) := by
    unfold load_cached_versions
    rw [hfile]
    simp only [decodeCacheFile, hdec]
  have hupd : update_cache_for_missing_version mirror V now st = (.ok false, st, false) := by
    unfold update_cache_for_missing_version
    rw [hload]
    simp only [hhas]
    rfl
  unfold version_exists_in_cache
  rw [hload]
  simp only [hurl, hupd]
  rfl

/-- Witness for C10: the cached entry for `"4.19.0"` has only a `mac-arm64`
URL while `linux-x86_64` is queried. -/
theorem claim_C10_witness :
    version_exists_in_cache [] "4.19.0" Platform.LINUX_X86_64 true "now"
      ⟨some (.json (encodeVersionCache
        ⟨[VersionInfo.mk "4.19.0" [("mac-arm64", "u")]], "t"⟩)), true⟩
    = (.ok (some false),
       ⟨some (.json (encodeVersionCache
         ⟨[VersionInfo.mk "4.19.0" [("mac-arm64", "u")]], "t"⟩)), true⟩,
       false) :=
  claim_C10 _ _ ⟨[VersionInfo.mk "4.19.0" [("mac-arm64", "u")]], "t"⟩ _ _ _ _
    rfl (decodeVersionCacheJson_encode _) rfl rfl

end Ovc
